import Mathlib

/-!
Shallow embedding of the email system (`src/email_address.py`, `src/email.py`,
`src/utils.py`, `src/service.py`, `src/status.py`).  Text is modelled as
`List Char`; Python's dynamic `None` values as `Option`; the failing
`EmailAddress` constructor as `Except`; the current date as an explicit
parameter.
-/

namespace EmailSys

/-- Whitespace characters recognised by Python's `str.split()` / `str.strip()`
(ASCII fragment): space, tab, newline, carriage return, vertical tab, form feed. -/
def pyWs (c : Char) : Bool :=
  c = ' ' || c = '\t' || c = '\n' || c = '\r' || c = '\x0b' || c = '\x0c'

/-- Python `str.split()` with no arguments: split on runs of whitespace,
dropping empty pieces. -/
def splitWs (l : List Char) : List (List Char) :=
  match l with
  | [] => []
  | c :: cs =>
    if pyWs c then splitWs cs
    else (c :: cs.takeWhile (fun d => !pyWs d)) :: splitWs (cs.dropWhile (fun d => !pyWs d))
termination_by l.length
decreasing_by
  · simp
  · simp only [List.length_cons]
    have h : (cs.dropWhile (fun d => !pyWs d)).length ≤ cs.length := by
      induction cs with
      | nil => simp
      | cons a t ih =>
        rw [List.dropWhile_cons]
        split
        · exact Nat.le_trans ih (Nat.le_succ _)
        · simp
    omega

/-- Python `" ".join(words)`. -/
def joinWords : List (List Char) → List Char
  | [] => []
  | [w] => w
  | w :: v :: t => w ++ ' ' :: joinWords (v :: t)

/-- Literal translation of the single-character replacements
`text.replace("\n", " ").replace("\t", " ")` in `clean_text`. -/
def replNlTab (c : Char) : Char :=
  if c = '\n' || c = '\t' then ' ' else c

/-- `clean_text` from `src/utils.py`:
`" ".join(text.replace("\n", " ").replace("\t", " ").split())`. -/
def cleanText (s : List Char) : List Char :=
  joinWords (splitWs (s.map replNlTab))

/-- Replace every maximal run of whitespace by a single space
(the spec's wording of the collapsing step). -/
def collapseWs (l : List Char) : List Char :=
  match l with
  | [] => []
  | c :: cs =>
    if pyWs c then ' ' :: collapseWs (cs.dropWhile pyWs)
    else c :: collapseWs cs
termination_by l.length
decreasing_by
  · simp only [List.length_cons]
    have h : (cs.dropWhile pyWs).length ≤ cs.length := by
      induction cs with
      | nil => simp
      | cons a t ih =>
        rw [List.dropWhile_cons]
        split
        · exact Nat.le_trans ih (Nat.le_succ _)
        · simp
    omega
  · simp

/-- Drop trailing whitespace. -/
def stripTrail (l : List Char) : List Char :=
  (l.reverse.dropWhile pyWs).reverse

/-- Python `str.strip()`: drop leading and trailing whitespace. -/
def stripWs (l : List Char) : List Char :=
  stripTrail (l.dropWhile pyWs)

/-- The spec's wording of `clean_text`: replace each tab and newline by a
space, collapse every whitespace run into one space, trim both ends. -/
def cleanTextSpec (s : List Char) : List Char :=
  stripWs (collapseWs (s.map replNlTab))

/-- `Status` from `src/status.py`: a `StrEnum`, so each member renders as its
lowercase string value. -/
inductive Status where
  | draft
  | ready
  | sent
  | failed
  | invalid
deriving DecidableEq

/-- The string value of a `Status` member, as produced by Python string
interpolation of a `StrEnum`. -/
def statusStr : Status → List Char
  | .draft => "draft".toList
  | .ready => "ready".toList
  | .sent => "sent".toList
  | .failed => "failed".toList
  | .invalid => "invalid".toList

/-- A validated address: the single `_address` attribute of `EmailAddress`. -/
structure EmailAddress where
  address : List Char
deriving DecidableEq

/-- `EmailAddress.normalize_address`: `address.lower().strip()`. -/
def normalizeAddress (s : List Char) : List Char :=
  stripWs (s.map Char.toLower)

/-- `EmailAddress._check_correct_email`: contains `@` and ends with `.com`,
`.ru` or `.net`. -/
def checkCorrectEmail (a : List Char) : Bool :=
  a.contains '@' &&
    (List.isSuffixOf ".com".toList a || List.isSuffixOf ".ru".toList a ||
      List.isSuffixOf ".net".toList a)

/-- The `ValueError` message raised by `EmailAddress.__init__`:
`f"Некорректный email: {address}"`, carrying the raw input. -/
def invalidEmailMsg (raw : List Char) : List Char :=
  "Некорректный email: ".toList ++ raw

/-- `EmailAddress.__init__`: normalize, validate, store — or raise. -/
def mkEmailAddress (raw : List Char) : Except (List Char) EmailAddress :=
  let n := normalizeAddress raw
  if checkCorrectEmail n then .ok ⟨n⟩ else .error (invalidEmailMsg raw)

/-- `EmailAddress.masked`: `local, domain = self._address.split("@")` then
`f"{local[:2]}***@{domain}"`.  The two-name unpacking raises unless the split
yields exactly two parts, which `none` models. -/
def masked (a : EmailAddress) : Option (List Char) :=
  match a.address.splitOn '@' with
  | [l, d] => some (l.take 2 ++ "***@".toList ++ d)
  | _ => none

/-- The `Email` dataclass (after `__post_init__`, so `recipients` is a list).
`sender` is `Option` because Python lets `None` reach the field, and
`prepare` tests its truthiness. -/
structure Email where
  subject : List Char
  body : List Char
  sender : Option EmailAddress
  recipients : List EmailAddress
  date : Option (List Char)
  short_body : Option (List Char)
  status : Status
deriving DecidableEq

/-- Python `", ".join(...)` separator joining. -/
def joinSep (sep : List Char) : List (List Char) → List Char
  | [] => []
  | [w] => w
  | w :: v :: t => w ++ sep ++ joinSep sep (v :: t)

/-- `Email.get_recipients_str`: `", ".join([r.address for r in self.recipients])`. -/
def getRecipientsStr (e : Email) : List Char :=
  joinSep ", ".toList (e.recipients.map EmailAddress.address)

/-- `Email.clean_data`: apply `clean_text` to subject and body. -/
def cleanData (e : Email) : Email :=
  { e with subject := cleanText e.subject, body := cleanText e.body }

/-- `Email.add_short_body(n)`. -/
def addShortBody (n : Nat) (e : Email) : Email :=
  if e.body.isEmpty then { e with short_body := none }
  else if e.body.length ≤ n then { e with short_body := some e.body }
  else { e with short_body := some (e.body.take n ++ "...".toList) }

/-- `Email.is_valid_fields`: `bool(self.subject and self.body)`. -/
def isValidFields (e : Email) : Bool :=
  !e.subject.isEmpty && !e.body.isEmpty

/-- The truthiness test in `Email.prepare`:
`self.subject and self.body and self.sender and self.recipients`. -/
def readyCond (e : Email) : Bool :=
  !e.subject.isEmpty && !e.body.isEmpty && e.sender.isSome && !e.recipients.isEmpty

/-- `Email.prepare`: clean, set status READY/INVALID, recompute short body
with the default `n = 10`. -/
def prepare (e : Email) : Email :=
  let e1 := cleanData e
  let e2 := { e1 with status := if readyCond e1 then Status.ready else Status.invalid }
  addShortBody 10 e2

/-- Python string interpolation of an `Optional[str]`: `None` prints `"None"`. -/
def optStr : Option (List Char) → List Char
  | some s => s
  | none => "None".toList

/-- The `date.today()` value handed to the service, as year/month/day. -/
structure PyDate where
  year : Nat
  month : Nat
  day : Nat

/-- Zero-pad a digit string on the left to width `w` (as `strftime` does). -/
def padZero (w : Nat) (s : List Char) : List Char :=
  List.replicate (w - s.length) '0' ++ s

/-- `EmailService.add_send_date`: `date.today().strftime("%Y-%m-%d")`. -/
def addSendDate (t : PyDate) : List Char :=
  padZero 4 (Nat.toDigits 10 t.year) ++ '-' ::
    (padZero 2 (Nat.toDigits 10 t.month) ++ '-' :: padZero 2 (Nat.toDigits 10 t.day))

/-- One iteration of the loop in `EmailService.send_email`: build the copy of
the bound message for recipient `r` and append it; the bound message is
carried through unchanged, as the loop never assigns to it. -/
def sendStep (t : PyDate) (st : List Email × Email) (r : EmailAddress) :
    List Email × Email :=
  let bound := st.2
  let copy : Email :=
    { bound with
      recipients := [r]
      date := some (addSendDate t)
      status := if bound.status = Status.ready then Status.sent else Status.failed }
  (st.1 ++ [copy], bound)

/-- `EmailService.send_email` as a state transformer on the bound message:
returns the produced list and the bound message after the call. -/
def sendEmailSt (bound : Email) (t : PyDate) : List Email × Email :=
  if bound.recipients.isEmpty then ([], bound)
  else bound.recipients.foldl (sendStep t) ([], bound)

/-- The list `EmailService.send_email` returns. -/
def sendEmail (bound : Email) (t : PyDate) : List Email :=
  (sendEmailSt bound t).1

/-- The line `LoggingEmailService.send_email` writes for one produced copy,
given the copy's sender object (`email.sender.address` raises when the sender
is `None`, which the `Option` result of `logLine` models). -/
def logLineWith (em : Email) (a : EmailAddress) : List Char :=
  '[' :: optStr em.date ++ "] Status: ".toList ++ statusStr em.status ++
    ", От: ".toList ++ a.address ++
    ", Кому: ".toList ++ getRecipientsStr em ++
    ", Тема: ".toList ++ em.subject ++ ['\n']

/-- The log line for a copy, `none` when its sender is `None`. -/
def logLine (em : Email) : Option (List Char) :=
  em.sender.map (logLineWith em)

/-- `LoggingEmailService.send_email`: delegate, then append one line per
produced copy to the log; an attribute error while formatting (sender `None`)
is modelled by `Except.error`. -/
def loggingSendEmail (bound : Email) (t : PyDate) (log : List (List Char)) :
    Except Unit (List Email × List (List Char)) :=
  let sent := sendEmail bound t
  match sent.mapM logLine with
  | some lines => .ok (sent, log ++ lines)
  | none => .error ()

/-- `self.short_body or self.body` in `Email.__str__`: the short body when it
is a non-empty string, otherwise the body. -/
def shortOrBody (e : Email) : List Char :=
  match e.short_body with
  | some sb => if sb.isEmpty then e.body else sb
  | none => e.body

/-- `Email.__str__`, defined when the sender exists and `masked` succeeds. -/
def emailDisplay (e : Email) : Option (List Char) :=
  match e.sender with
  | none => none
  | some a =>
    (masked a).map (fun m =>
      "Status: ".toList ++ statusStr e.status ++ '\n' ::
        ("Кому: ".toList ++ getRecipientsStr e ++ '\n' ::
          ("От: ".toList ++ m ++ '\n' ::
            ("Тема: ".toList ++ e.subject ++ ", дата ".toList ++ optStr e.date ++
              '\n' :: shortOrBody e))))

/-- The per-recipient copy the claims describe: a copy of the bound message
whose recipients, date and status are overwritten. -/
def sendCopy (b : Email) (t : PyDate) (r : EmailAddress) : Email :=
  { b with
    recipients := [r]
    date := some (addSendDate t)
    status := if b.status = Status.ready then Status.sent else Status.failed }

/-- The claims' description of `add_short_body` as a function of the body. -/
def shortBodyOf (n : Nat) (b : List Char) : Option (List Char) :=
  if b.isEmpty then none
  else if b.length ≤ n then some b
  else some (b.take n ++ "...".toList)

/-- Sample message used to instantiate hypothesis-bearing claim theorems. -/
def egEmail : Email :=
  { subject := "Hello".toList
    body := "Msg".toList
    sender := some ⟨"a@a.com".toList⟩
    recipients := [⟨"b@b.com".toList⟩]
    date := none
    short_body := none
    status := Status.ready }

/-- Message with a whitespace-only subject, on which `is_valid_fields`
disagrees with the trimming claim. -/
def egWsSubject : Email :=
  { subject := [' ']
    body := "body".toList
    sender := some ⟨"a@a.com".toList⟩
    recipients := [⟨"b@b.com".toList⟩]
    date := none
    short_body := none
    status := Status.draft }

/-! ### Helper lemmas about the text functions -/

theorem dropWhile_eq_self_of_all {α : Type} {p : α → Bool} {l : List α}
    (h : ∀ c ∈ l, p c = false) : l.dropWhile p = l := by
  cases l with
  | nil => rfl
  | cons a t => rw [List.dropWhile_cons, h a (List.mem_cons_self a t)]; simp

theorem dropWhile_head_false {α : Type} {p : α → Bool} {l : List α} {c : α} {cs : List α}
    (h : l.dropWhile p = c :: cs) : p c = false := by
  induction l with
  | nil => simp at h
  | cons a t ih =>
    rw [List.dropWhile_cons] at h
    by_cases hp : p a = true
    · rw [if_pos hp] at h; exact ih h
    · rw [if_neg hp] at h
      cases h
      simpa using hp

theorem dropWhile_idem {α : Type} (p : α → Bool) (l : List α) :
    (l.dropWhile p).dropWhile p = l.dropWhile p := by
  cases hd : l.dropWhile p with
  | nil => rfl
  | cons c cs => rw [List.dropWhile_cons, dropWhile_head_false hd]; simp

theorem length_dropWhile_le {α : Type} (p : α → Bool) (l : List α) :
    (l.dropWhile p).length ≤ l.length := by
  induction l with
  | nil => simp
  | cons a t ih =>
    rw [List.dropWhile_cons]
    split
    · exact Nat.le_trans ih (Nat.le_succ _)
    · simp

theorem splitWs_nil : splitWs [] = [] := by
  simp [splitWs]

theorem splitWs_cons_of_ws {c : Char} {cs : List Char} (h : pyWs c = true) :
    splitWs (c :: cs) = splitWs cs := by
  rw [splitWs, h]; simp

theorem splitWs_cons_of_not_ws {c : Char} {cs : List Char} (h : pyWs c = false) :
    splitWs (c :: cs) =
      (c :: cs.takeWhile (fun d => !pyWs d)) :: splitWs (cs.dropWhile (fun d => !pyWs d)) := by
  rw [splitWs, h]; simp

theorem splitWs_dropWhile (l : List Char) : splitWs (l.dropWhile pyWs) = splitWs l := by
  induction l with
  | nil => rfl
  | cons c cs ih =>
    rw [List.dropWhile_cons]
    by_cases h : pyWs c = true
    · rw [if_pos h, ih, splitWs_cons_of_ws h]
    · rw [if_neg h]

theorem splitWs_words {l : List Char} :
    ∀ w ∈ splitWs l, w ≠ [] ∧ ∀ c ∈ w, pyWs c = false := by
  induction l using splitWs.induct with
  | case1 => simp [splitWs_nil]
  | case2 c cs h ih => rw [splitWs_cons_of_ws h]; exact ih
  | case3 c cs h ih =>
    rw [splitWs_cons_of_not_ws (by simpa using h)]
    intro w hw
    rcases List.mem_cons.mp hw with rfl | hw'
    · refine ⟨by simp, ?_⟩
      intro d hd
      rcases List.mem_cons.mp hd with rfl | hd'
      · simpa using h
      · simpa using List.mem_takeWhile_imp hd'
    · exact ih w hw'

theorem joinWords_cons₂ (w v : List Char) (t : List (List Char)) :
    joinWords (w :: v :: t) = w ++ ' ' :: joinWords (v :: t) := rfl

theorem mem_joinWords {W : List (List Char)} {c : Char} (h : c ∈ joinWords W) :
    (∃ w ∈ W, c ∈ w) ∨ c = ' ' := by
  induction W with
  | nil => simp [joinWords] at h
  | cons w t ih =>
    cases t with
    | nil => exact Or.inl ⟨w, by simp, by simpa [joinWords] using h⟩
    | cons v u =>
      rw [joinWords_cons₂] at h
      rcases List.mem_append.mp h with hw | hrest
      · exact Or.inl ⟨w, by simp, hw⟩
      · rcases List.mem_cons.mp hrest with rfl | hj
        · exact Or.inr rfl
        · rcases ih hj with ⟨x, hx, hcx⟩ | hsp
          · exact Or.inl ⟨x, List.mem_cons_of_mem _ hx, hcx⟩
          · exact Or.inr hsp

theorem replNlTab_of_not_ws {c : Char} (h : pyWs c = false) : replNlTab c = c := by
  unfold pyWs at h
  simp only [Bool.or_eq_false_iff, decide_eq_false_iff_not] at h
  simp [replNlTab, h.1.1.1.2, h.1.1.1.1.2]

theorem map_replNlTab_joinWords (W : List (List Char))
    (hW : ∀ w ∈ W, ∀ c ∈ w, pyWs c = false) :
    (joinWords W).map replNlTab = joinWords W := by
  have hall : ∀ c ∈ joinWords W, replNlTab c = c := by
    intro c hc
    rcases mem_joinWords hc with ⟨w, hw, hcw⟩ | rfl
    · exact replNlTab_of_not_ws (hW w hw c hcw)
    · rfl
  calc (joinWords W).map replNlTab = (joinWords W).map id := List.map_congr_left hall
    _ = joinWords W := List.map_id _

theorem splitWs_joinWords (W : List (List Char))
    (hW : ∀ w ∈ W, w ≠ [] ∧ ∀ c ∈ w, pyWs c = false) :
    splitWs (joinWords W) = W := by
  induction W with
  | nil => exact splitWs_nil
  | cons w t ih =>
    obtain ⟨hne, hws⟩ := hW w (by simp)
    obtain ⟨c, w', rfl⟩ : ∃ c w', w = c :: w' := by
      cases w with
      | nil => exact absurd rfl hne
      | cons c w' => exact ⟨c, w', rfl⟩
    have hc : pyWs c = false := hws c (by simp)
    have hw' : ∀ d ∈ w', (fun d => !pyWs d) d = true := by
      intro d hd; simp [hws d (List.mem_cons_of_mem _ hd)]
    cases t with
    | nil =>
      show splitWs (c :: w') = [c :: w']
      rw [splitWs_cons_of_not_ws hc,
        List.takeWhile_eq_self_iff.mpr hw',
        List.dropWhile_eq_nil_iff.mpr hw', splitWs_nil]
    | cons v u =>
      rw [joinWords_cons₂, List.cons_append, splitWs_cons_of_not_ws hc]
      have htake : (w' ++ ' ' :: joinWords (v :: u)).takeWhile (fun d => !pyWs d) = w' := by
        rw [List.takeWhile_append]
        rw [List.takeWhile_eq_self_iff.mpr hw']
        simp [List.takeWhile_cons, pyWs]
      have hdrop : (w' ++ ' ' :: joinWords (v :: u)).dropWhile (fun d => !pyWs d) =
          ' ' :: joinWords (v :: u) := by
        rw [List.dropWhile_append]
        rw [List.dropWhile_eq_nil_iff.mpr hw']
        simp [List.dropWhile_cons, pyWs]
      rw [htake, hdrop, splitWs_cons_of_ws (by simp [pyWs]),
        ih (fun x hx => hW x (List.mem_cons_of_mem _ hx))]

theorem cleanText_idem (s : List Char) : cleanText (cleanText s) = cleanText s := by
  unfold cleanText
  rw [map_replNlTab_joinWords _ (fun w hw c hc => (splitWs_words w hw).2 c hc),
    splitWs_joinWords _ splitWs_words]

theorem collapseWs_nil : collapseWs [] = [] := by
  simp [collapseWs]

theorem collapseWs_cons_of_ws {c : Char} {cs : List Char} (h : pyWs c = true) :
    collapseWs (c :: cs) = ' ' :: collapseWs (cs.dropWhile pyWs) := by
  rw [collapseWs, h]; simp

theorem collapseWs_cons_of_not_ws {c : Char} {cs : List Char} (h : pyWs c = false) :
    collapseWs (c :: cs) = c :: collapseWs cs := by
  rw [collapseWs, h]; simp

theorem collapseWs_append_word (w r : List Char) (hw : ∀ c ∈ w, pyWs c = false) :
    collapseWs (w ++ r) = w ++ collapseWs r := by
  induction w with
  | nil => rfl
  | cons c w' ih =>
    rw [List.cons_append, collapseWs_cons_of_not_ws (hw c (by simp)),
      ih (fun d hd => hw d (List.mem_cons_of_mem _ hd))]
    rfl

theorem stripTrail_nil : stripTrail [] = [] := rfl

theorem stripTrail_of_all_not_ws {l : List Char} (h : ∀ c ∈ l, pyWs c = false) :
    stripTrail l = l := by
  unfold stripTrail
  rw [dropWhile_eq_self_of_all (fun c hc => h c (List.mem_reverse.mp hc)), List.reverse_reverse]

theorem stripTrail_append_space (x : List Char) : stripTrail (x ++ [' ']) = stripTrail x := by
  unfold stripTrail
  rw [List.reverse_append]
  simp [List.dropWhile_cons, pyWs]

theorem stripTrail_append (x y : List Char) (hy : ∃ c ∈ y, pyWs c = false) :
    stripTrail (x ++ y) = x ++ stripTrail y := by
  obtain ⟨c, hc, hcw⟩ := hy
  unfold stripTrail
  rw [List.reverse_append, List.dropWhile_append]
  have hne : (y.reverse.dropWhile pyWs).isEmpty = false := by
    cases hnil : y.reverse.dropWhile pyWs with
    | nil =>
      have := List.dropWhile_eq_nil_iff.mp hnil c (List.mem_reverse.mpr hc)
      rw [hcw] at this
      exact absurd this Bool.false_ne_true
    | cons a t => rfl
  rw [hne]
  simp

theorem dropWhile_collapseWs (l : List Char) :
    (collapseWs l).dropWhile pyWs = collapseWs (l.dropWhile pyWs) := by
  induction l using collapseWs.induct with
  | case1 => simp [collapseWs_nil]
  | case2 c cs h ih =>
    rw [collapseWs_cons_of_ws h, List.dropWhile_cons]
    have hsp : pyWs ' ' = true := by simp [pyWs]
    rw [hsp]
    simp only [if_true]
    rw [ih, dropWhile_idem, List.dropWhile_cons, h]
    simp
  | case3 c cs h ih =>
    have hc : pyWs c = false := by simpa using h
    rw [collapseWs_cons_of_not_ws hc, List.dropWhile_cons, hc]
    simp only [Bool.false_eq_true, if_false]
    rw [List.dropWhile_cons, hc]
    simp only [Bool.false_eq_true, if_false]
    rw [collapseWs_cons_of_not_ws hc]

theorem joinSplit_aux :
    ∀ (n : Nat) (l : List Char), l.length ≤ n →
      (∀ c, l.head? = some c → pyWs c = false) →
      joinWords (splitWs l) = stripTrail (collapseWs l) := by
  intro n
  induction n with
  | zero =>
    intro l hlen _
    have : l = [] := List.length_eq_zero.mp (Nat.le_zero.mp hlen)
    subst this
    rw [splitWs_nil, collapseWs_nil]; rfl
  | succ n ih =>
    intro l hlen hhead
    cases l with
    | nil => rw [splitWs_nil, collapseWs_nil]; rfl
    | cons c cs =>
      have hc : pyWs c = false := hhead c rfl
      rw [splitWs_cons_of_not_ws hc, collapseWs_cons_of_not_ws hc]
      have hw : ∀ d ∈ cs.takeWhile (fun d => !pyWs d), pyWs d = false := by
        intro d hd; simpa using List.mem_takeWhile_imp hd
      have hcs : collapseWs cs =
          cs.takeWhile (fun d => !pyWs d) ++ collapseWs (cs.dropWhile (fun d => !pyWs d)) := by
        conv_lhs => rw [← List.takeWhile_append_dropWhile (fun d => !pyWs d) cs]
        exact collapseWs_append_word _ _ hw
      rw [hcs]
      set w := cs.takeWhile (fun d => !pyWs d) with hwdef
      set r := cs.dropWhile (fun d => !pyWs d) with hrdef
      have hrlen : r.length ≤ cs.length := length_dropWhile_le _ _
      cases hr : r with
      | nil =>
        rw [hr] at *
        rw [splitWs_nil, collapseWs_nil, List.append_nil]
        show joinWords [c :: w] = stripTrail (c :: w)
        rw [stripTrail_of_all_not_ws (by
          intro d hd
          rcases List.mem_cons.mp hd with rfl | hd'
          · exact hc
          · exact hw d hd')]
        rfl
      | cons d r' =>
        have hd : pyWs d = true := by
          have := dropWhile_head_false (hrdef ▸ hr)
          simpa using this
        rw [splitWs_cons_of_ws hd, collapseWs_cons_of_ws hd, ← splitWs_dropWhile r']
        have hr'len : (d :: r').length ≤ cs.length := hr ▸ hrlen
        cases hr'' : r'.dropWhile pyWs with
        | nil =>
          rw [splitWs_nil, collapseWs_nil]
          show joinWords [c :: w] = stripTrail (c :: (w ++ ' '  :: []))
          rw [show c :: (w ++ ' ' :: []) = (c :: w) ++ [' '] by simp, stripTrail_append_space,
            stripTrail_of_all_not_ws (by
              intro e he
              rcases List.mem_cons.mp he with rfl | he'
              · exact hc
              · exact hw e he')]
          rfl
        | cons e u =>
          have he : pyWs e = false := dropWhile_head_false hr''
          have hlen2 : (e :: u).length ≤ n := by
            have h1 : (r'.dropWhile pyWs).length ≤ r'.length := length_dropWhile_le _ _
            rw [hr''] at h1
            simp only [List.length_cons] at h1 hr'len hlen ⊢
            omega
          have hihead : ∀ x, (e :: u).head? = some x → pyWs x = false := by
            intro x hx
            cases hx
            exact he
          have hj := ih (e :: u) hlen2 hihead
          rw [splitWs_cons_of_not_ws he]
          have hstep : joinWords ((c :: w) ::
              (e :: List.takeWhile (fun d => !pyWs d) u) ::
                splitWs (List.dropWhile (fun d => !pyWs d) u)) =
              (c :: w) ++ ' ' :: joinWords ((e :: List.takeWhile (fun d => !pyWs d) u) ::
                splitWs (List.dropWhile (fun d => !pyWs d) u)) := joinWords_cons₂ _ _ _
          rw [hstep, ← splitWs_cons_of_not_ws he, hj]
          have hmem : ∃ x ∈ collapseWs (e :: u), pyWs x = false := by
            refine ⟨e, ?_, he⟩
            rw [collapseWs_cons_of_not_ws he]
            simp
          rw [show c :: (w ++ ' ' :: collapseWs (e :: u)) =
              ((c :: w) ++ [' ']) ++ collapseWs (e :: u) by simp,
            stripTrail_append _ _ hmem]
          simp

theorem joinSplit_eq_stripCollapse (l : List Char) :
    joinWords (splitWs l) = stripWs (collapseWs l) := by
  rw [← splitWs_dropWhile l]
  have hhead : ∀ c, (l.dropWhile pyWs).head? = some c → pyWs c = false := by
    intro c hc
    cases hd : l.dropWhile pyWs with
    | nil => rw [hd] at hc; cases hc
    | cons x xs =>
      rw [hd] at hc
      cases hc
      exact dropWhile_head_false hd
  rw [joinSplit_aux (l.dropWhile pyWs).length _ (Nat.le_refl _) hhead]
  unfold stripWs
  rw [dropWhile_collapseWs]

theorem cleanText_eq_spec (s : List Char) : cleanText s = cleanTextSpec s := by
  unfold cleanText cleanTextSpec
  exact joinSplit_eq_stripCollapse _

/-! ### Helper lemmas about the message and service operations -/

theorem addShortBody_eq (n : Nat) (e : Email) :
    addShortBody n e = { e with short_body := shortBodyOf n e.body } := by
  unfold addShortBody shortBodyOf
  split_ifs <;> rfl

theorem foldl_sendStep (t : PyDate) (rs : List EmailAddress) (acc : List Email) (b : Email) :
    rs.foldl (sendStep t) (acc, b) = (acc ++ rs.map (sendCopy b t), b) := by
  induction rs generalizing acc with
  | nil => simp
  | cons r rs ih =>
    rw [List.foldl_cons, List.map_cons]
    show List.foldl (sendStep t) (acc ++ [sendCopy b t r], b) rs = _
    rw [ih]
    simp

theorem sendEmailSt_snd (e : Email) (t : PyDate) : (sendEmailSt e t).2 = e := by
  unfold sendEmailSt
  split
  · rfl
  · rw [foldl_sendStep]

theorem sendEmail_eq_map (e : Email) (t : PyDate) :
    sendEmail e t = e.recipients.map (sendCopy e t) := by
  unfold sendEmail sendEmailSt
  split
  · rename_i h
    rw [List.isEmpty_iff.mp h]
    rfl
  · rw [foldl_sendStep]
    simp

theorem sendCopy_sender (b : Email) (t : PyDate) (r : EmailAddress) :
    (sendCopy b t r).sender = b.sender := rfl

theorem mapM_logLine_of_sender {a : EmailAddress} :
    ∀ (l : List Email), (∀ em ∈ l, em.sender = some a) →
      l.mapM logLine = some (l.map (fun em => logLineWith em a)) := by
  intro l
  induction l with
  | nil => intro _; rfl
  | cons em t ih =>
    intro h
    have hem : em.sender = some a := h em (by simp)
    rw [List.mapM_cons, ih (fun x hx => h x (List.mem_cons_of_mem _ hx))]
    simp [logLine, hem]

theorem prepare_idem (e : Email) : prepare (prepare e) = prepare e := by
  cases e with
  | mk subject body sender recipients date short_body status =>
    simp only [prepare, cleanData, addShortBody_eq, readyCond]
    simp [cleanText_idem]

/-! ### The claims -/

/-- C1: `send_email` returns one copy per recipient, in recipient order ([] for
no recipients): each copy is the bound message with recipients replaced by the
one-element list of that recipient, date set to the current date formatted
`YYYY-MM-DD`, and status SENT when the bound message's original status is
READY, FAILED otherwise. -/
theorem claim_C1_send_fanout (e : Email) (t : PyDate) :
    sendEmail e t = e.recipients.map (fun r =>
      { e with
        recipients := [r]
        date := some (addSendDate t)
        status := if e.status = Status.ready then Status.sent else Status.failed }) :=
  sendEmail_eq_map e t

/-- C2: `prepare` cleans subject and body, sets status READY exactly when the
cleaned subject and body are non-empty, the sender is non-null and the
recipient list is non-empty (INVALID otherwise — the status is always one of
the two), recomputes the short body from the cleaned body with the default
`n = 10`, leaves the other fields alone, and, being a total function, never
fails. -/
theorem claim_C2_prepare (e : Email) :
    (prepare e).subject = cleanText e.subject ∧
    (prepare e).body = cleanText e.body ∧
    ((prepare e).status = Status.ready ∨ (prepare e).status = Status.invalid) ∧
    ((prepare e).status = Status.ready ↔
      ((cleanText e.subject).isEmpty = false ∧ (cleanText e.body).isEmpty = false ∧
        e.sender.isSome = true ∧ e.recipients.isEmpty = false)) ∧
    (prepare e).short_body = shortBodyOf 10 (cleanText e.body) ∧
    (prepare e).sender = e.sender ∧
    (prepare e).recipients = e.recipients ∧
    (prepare e).date = e.date := by
  have hstat : (prepare e).status =
      if readyCond (cleanData e) then Status.ready else Status.invalid := by
    simp [prepare, addShortBody_eq]
  have hcond : readyCond (cleanData e) = true ↔
      ((cleanText e.subject).isEmpty = false ∧ (cleanText e.body).isEmpty = false ∧
        e.sender.isSome = true ∧ e.recipients.isEmpty = false) := by
    simp only [readyCond, cleanData, Bool.and_eq_true, List.isEmpty_eq_false,
      Bool.not_eq_true', List.isEmpty_iff]
    tauto
  refine ⟨?_, ?_, ?_, ?_, ?_, ?_, ?_, ?_⟩
  · simp [prepare, cleanData, addShortBody_eq]
  · simp [prepare, cleanData, addShortBody_eq]
  · rw [hstat]
    split
    · exact Or.inl rfl
    · exact Or.inr rfl
  · rw [hstat, ← hcond]
    cases hrc : readyCond (cleanData e) <;> simp [hrc]
  · simp [prepare, cleanData, addShortBody_eq]
  · simp [prepare, cleanData, addShortBody_eq]
  · simp [prepare, cleanData, addShortBody_eq]
  · simp [prepare, cleanData, addShortBody_eq]

/-- C3: `EmailAddress` construction normalizes the raw string to
`lower().strip()`; it either succeeds storing exactly the normalized string or
raises `ValueError` carrying the raw input, and it succeeds precisely when the
normalized string contains `@` and ends with `.com`, `.ru` or `.net`. -/
theorem claim_C3_address_validation (s : List Char) :
    (mkEmailAddress s = Except.ok ⟨normalizeAddress s⟩ ∨
      mkEmailAddress s = Except.error (invalidEmailMsg s)) ∧
    (mkEmailAddress s = Except.ok ⟨normalizeAddress s⟩ ↔
      ((normalizeAddress s).contains '@' = true ∧
        (List.isSuffixOf ".com".toList (normalizeAddress s) = true ∨
          List.isSuffixOf ".ru".toList (normalizeAddress s) = true ∨
          List.isSuffixOf ".net".toList (normalizeAddress s) = true))) := by
  by_cases h : checkCorrectEmail (normalizeAddress s) = true
  · have hok : mkEmailAddress s = Except.ok ⟨normalizeAddress s⟩ := by
      simp only [mkEmailAddress]
      rw [if_pos h]
    refine ⟨Or.inl hok, ?_⟩
    rw [hok]
    simp only [true_iff]
    simp only [checkCorrectEmail, Bool.and_eq_true, Bool.or_eq_true] at h
    tauto
  · have herr : mkEmailAddress s = Except.error (invalidEmailMsg s) := by
      simp only [mkEmailAddress]
      rw [if_neg h]
    refine ⟨Or.inr herr, ?_⟩
    constructor
    · intro hcontra
      rw [herr] at hcontra
      exact Except.noConfusion hcontra
    · intro hc
      exfalso
      apply h
      simp only [checkCorrectEmail, Bool.and_eq_true, Bool.or_eq_true]
      tauto

/-- C4 as stated is false: `is_valid_fields` does not trim.  On a message whose
subject is the single space `" "` (which trims to empty) it returns `true`,
while the claim demands `false`. -/
theorem claim_C4_counterexample :
    isValidFields egWsSubject = true ∧ stripWs egWsSubject.subject = [] := by
  constructor
  · rfl
  · rfl

/-- C4 (amended): `is_valid_fields` returns true iff the subject is non-empty
and the body is non-empty, evaluated without any trimming on the current field
values; whitespace-only text counts as filled. -/
theorem claim_C4_amended_no_trim (e : Email) :
    isValidFields e = true ↔ (e.subject.isEmpty = false ∧ e.body.isEmpty = false) := by
  unfold isValidFields
  cases hs : e.subject.isEmpty <;> cases hb : e.body.isEmpty <;> simp

/-- C5 as stated is false: the raw string `"a@b@c.com"` passes validation (it
contains `@` and ends with `.com`), but `masked` unpacks `split("@")` into two
names and raises on the resulting three parts instead of returning a masked
string. -/
theorem claim_C5_counterexample :
    mkEmailAddress "a@b@c.com".toList = Except.ok ⟨"a@b@c.com".toList⟩ ∧
    masked ⟨"a@b@c.com".toList⟩ = none := by
  constructor
  · rfl
  · rfl

/-- C5 (amended): on every constructed address whose stored string splits on
`@` into exactly a local part and a domain, `masked` succeeds and returns the
first at-most-two characters of the local part, then `***@`, then the domain;
addresses that validation admits with more than one `@` instead make the
accessor fail. -/
theorem claim_C5_amended_masked (a : EmailAddress) (l d : List Char)
    (h : a.address.splitOn '@' = [l, d]) :
    masked a = some (l.take 2 ++ "***@".toList ++ d) ∧ (l.take 2).length ≤ 2 := by
  unfold masked
  rw [h]
  exact ⟨rfl, by simp⟩

/-- Witness for C5 (amended) at the concrete address `user@gmail.com`. -/
theorem claim_C5_amended_masked_witness :
    (EmailAddress.mk "user@gmail.com".toList).address.splitOn '@' =
        ["user".toList, "gmail.com".toList] ∧
    masked ⟨"user@gmail.com".toList⟩ =
        some ("user".toList.take 2 ++ "***@".toList ++ "gmail.com".toList) ∧
    ("user".toList.take 2).length ≤ 2 := by
  refine ⟨by decide, ?_⟩
  exact claim_C5_amended_masked ⟨"user@gmail.com".toList⟩ "user".toList "gmail.com".toList
    (by decide)

/-- C6: dispatch never mutates the bound message — the service state after
`send_email` is exactly the message it started with, so its date (still none
when it was none), status, subject, body, sender, recipients and short body
are all unchanged. -/
theorem claim_C6_no_mutation (e : Email) (t : PyDate) :
    (sendEmailSt e t).2 = e :=
  sendEmailSt_snd e t

/-- C7: `prepare` is idempotent — preparing an already prepared message is a
no-op on the whole record (subject, body, status and short body included). -/
theorem claim_C7_prepare_idem (e : Email) :
    prepare (prepare e) = prepare e :=
  prepare_idem e

/-- C8: `clean_text` equals the spec's description — replace tabs and newlines
by spaces, collapse whitespace runs to single spaces, trim both ends — and in
particular maps the two documented examples to their collapsed forms. -/
theorem claim_C8_clean_text :
    (∀ s : List Char, cleanText s = cleanTextSpec s) ∧
    cleanText "  Hello   world  ".toList = "Hello world".toList ∧
    cleanText (" Test   body\nwith   spaces ").toList = "Test body with spaces".toList := by
  refine ⟨cleanText_eq_spec, ?_, ?_⟩
  · simp +decide [cleanText, splitWs, joinWords]
  · simp +decide [cleanText, splitWs, joinWords]

/-- C9: `LoggingEmailService.send_email` delegates to the base dispatch,
returns exactly the base result, and appends to the log one line per produced
copy, in production order, in the documented
`[date] Status/От/Кому/Тема` format; with no recipients it returns the empty
list and appends nothing. -/
theorem claim_C9_logging (e : Email) (t : PyDate) (log : List (List Char))
    (a : EmailAddress) (h : e.sender = some a) :
    loggingSendEmail e t log =
      Except.ok (sendEmail e t,
        log ++ (sendEmail e t).map (fun em => logLineWith em a)) ∧
    (e.recipients = [] → loggingSendEmail e t log = Except.ok ([], log)) := by
  have hsenders : ∀ em ∈ sendEmail e t, em.sender = some a := by
    intro em hm
    rw [sendEmail_eq_map] at hm
    rcases List.mem_map.mp hm with ⟨r, hr, rfl⟩
    rw [sendCopy_sender]
    exact h
  have hmain : loggingSendEmail e t log =
      Except.ok (sendEmail e t,
        log ++ (sendEmail e t).map (fun em => logLineWith em a)) := by
    simp only [loggingSendEmail]
    rw [mapM_logLine_of_sender _ hsenders]
  refine ⟨hmain, ?_⟩
  intro hrec
  rw [hmain, sendEmail_eq_map, hrec]
  simp

/-- Witness for C9 at a concrete one-recipient READY message. -/
theorem claim_C9_logging_witness :
    egEmail.sender = some ⟨"a@a.com".toList⟩ ∧
    (loggingSendEmail egEmail ⟨2026, 10, 12⟩ [] =
        Except.ok (sendEmail egEmail ⟨2026, 10, 12⟩,
          [] ++ (sendEmail egEmail ⟨2026, 10, 12⟩).map
            (fun em => logLineWith em ⟨"a@a.com".toList⟩)) ∧
      (egEmail.recipients = [] →
        loggingSendEmail egEmail ⟨2026, 10, 12⟩ [] = Except.ok ([], []))) :=
  ⟨rfl, claim_C9_logging egEmail ⟨2026, 10, 12⟩ [] ⟨"a@a.com".toList⟩ rfl⟩

/-- C10: wherever a status is rendered — the display string's first line and
every log line — it appears as the lowercase `StrEnum` value (`draft`,
`ready`, `sent`, `failed`, `invalid`), never as the uppercase member name. -/
theorem claim_C10_lowercase_status (e : Email) (s ll : List Char)
    (hd : emailDisplay e = some s) (hl : logLine e = some ll) :
    (∃ rest, s = "Status: ".toList ++ statusStr e.status ++ '\n' :: rest) ∧
    (∃ rest, ll = '[' :: optStr e.date ++ "] Status: ".toList ++
      statusStr e.status ++ ", От: ".toList ++ rest) ∧
    statusStr e.status ∈
      ["draft".toList, "ready".toList, "sent".toList, "failed".toList, "invalid".toList] ∧
    statusStr e.status ∉
      ["DRAFT".toList, "READY".toList, "SENT".toList, "FAILED".toList, "INVALID".toList] := by
  cases hs : e.sender with
  | none =>
    simp [emailDisplay, hs] at hd
  | some a =>
    simp only [emailDisplay, hs] at hd
    simp only [logLine, hs] at hl
    cases hm : masked a with
    | none =>
      simp [hm] at hd
    | some m =>
      rw [hm] at hd
      simp only [Option.map_some', Option.some.injEq] at hd hl
      refine ⟨⟨_, hd.symm⟩,
        ⟨a.address ++ ", Кому: ".toList ++ getRecipientsStr e ++ ", Тема: ".toList ++
          e.subject ++ ['\n'], ?_⟩, ?_, ?_⟩
      · rw [← hl]
        simp [logLineWith]
      · cases e.status <;> simp [statusStr]
      · cases e.status <;> decide

/-- Witness for C10 at a concrete message whose display and log line are both
defined. -/
theorem claim_C10_lowercase_status_witness :
    emailDisplay egEmail = some ((emailDisplay egEmail).getD []) ∧
    logLine egEmail = some ((logLine egEmail).getD []) ∧
    ((∃ rest, (emailDisplay egEmail).getD [] =
        "Status: ".toList ++ statusStr egEmail.status ++ '\n' :: rest) ∧
      (∃ rest, (logLine egEmail).getD [] = '[' :: optStr egEmail.date ++
        "] Status: ".toList ++ statusStr egEmail.status ++ ", От: ".toList ++ rest) ∧
      statusStr egEmail.status ∈
        ["draft".toList, "ready".toList, "sent".toList, "failed".toList, "invalid".toList] ∧
      statusStr egEmail.status ∉
        ["DRAFT".toList, "READY".toList, "SENT".toList, "FAILED".toList, "INVALID".toList]) :=
  ⟨rfl, rfl, claim_C10_lowercase_status egEmail _ _ rfl rfl⟩

end EmailSys
